import Mathlib

/-!
Verification development for the serial session manager and device command
protocol of the flasher repository.  The TypeScript sources are shallowly
embedded: pure helpers become Lean functions, the stateful serial session
becomes explicit state passing over a `Session` record together with a trace
of port actions, and fallible operations return `Except`.  JavaScript
builtins used by the sources (`Number(...)`, `String(...)`, `split`, `trim`,
regular-expression matching) are modelled by executable Lean functions that
follow the ECMAScript behaviour on the fragment the sources exercise; the
comments on each definition state the abstractions taken.
-/

namespace Flasher

/-! ### List and string helpers -/

/-- `beginsWith hay pat` is true when `pat` is a prefix of `hay`
(character-list form of a literal string match). -/
def beginsWith : List Char → List Char → Bool
  | _, [] => true
  | [], _ :: _ => false
  | a :: as, b :: bs => a = b && beginsWith as bs

/-- Index of the first occurrence of `pat` inside `hay`, if any.  Models the
left-to-right scanning a JavaScript regular expression performs for a pattern
that starts with a literal. -/
def findSub (pat : List Char) : List Char → Option Nat
  | [] => if pat.isEmpty then some 0 else none
  | h :: t =>
    if beginsWith (h :: t) pat then some 0
    else (findSub pat t).map (· + 1)

/-- `containsStr a b` models JavaScript `a.includes(b)`. -/
def containsStr (a b : String) : Bool :=
  (findSub b.data a.data).isSome

/-- Splits a character list at every occurrence of `c`; models
`String.prototype.split` with a one-character separator (so the result is
never empty, and separators at the ends yield empty pieces). -/
def splitChar (c : Char) : List Char → List (List Char)
  | [] => [[]]
  | x :: xs =>
    match splitChar c xs with
    | [] => [[]]
    | g :: gs => if x = c then [] :: g :: gs else (x :: g) :: gs

/-- `jsSplit s c` models JavaScript `s.split(c)` for a single-character
separator string. -/
def jsSplit (s : String) (c : Char) : List String :=
  (splitChar c s.data).map String.mk

/-- JavaScript whitespace for `String.prototype.trim` (the rare Unicode
space characters are abstracted away). -/
def isJsSpace (c : Char) : Bool :=
  c = ' ' || c = '\t' || c = '\n' || c = '\r' || c = '\x0b' || c = '\x0c'

/-- Model of `String.prototype.trim`: strip whitespace from both ends. -/
def jsTrim (s : String) : String :=
  String.mk (((s.data.dropWhile isJsSpace).reverse.dropWhile isJsSpace).reverse)

/-- Association-list lookup (first binding wins), modelling JavaScript
property read on a plain object. -/
def lookupAssoc {α : Type} (m : List (String × α)) (k : String) : Option α :=
  match m with
  | [] => none
  | (k', v) :: rest => if k' = k then some v else lookupAssoc rest k

/-- Property write on a plain JavaScript object: an existing key keeps its
position and gets the new value, a new key is appended (insertion order). -/
def assocSet {α : Type} (m : List (String × α)) (k : String) (v : α) :
    List (String × α) :=
  match m with
  | [] => [(k, v)]
  | (k', v') :: rest =>
    if k' = k then (k, v) :: rest else (k', v') :: assocSet rest k v

/-- `Object.assign(target, source)`: copy every binding of `source` into
`target` in order. -/
def assignAll {α : Type} (target source : List (String × α)) :
    List (String × α) :=
  source.foldl (fun m kv => assocSet m kv.1 kv.2) target

/-! ### The JavaScript number model

Finite JavaScript numbers are modelled exactly as rationals; IEEE-754
rounding of decimal literals, overflow of huge literals to `Infinity`,
underflow of tiny literals to zero, and exponential output notation are
abstracted away (none of the strings the program exchanges reach those
regimes).  `NaN` and the two infinities are explicit constructors because
the unflattening code distinguishes them via `Number.isNaN`. -/

inductive JSNum where
  | nan
  | posInf
  | negInf
  | fin (q : ℚ)
deriving DecidableEq, Repr

/-- Decimal digit value. -/
def digitVal (c : Char) : Option Nat :=
  if c.isDigit then some (c.toNat - 48) else none

/-- Octal digit value (ECMAScript OctalDigit: 0-7 only). -/
def octVal (c : Char) : Option Nat :=
  if '0' ≤ c ∧ c ≤ '7' then some (c.toNat - 48) else none

/-- Binary digit value (ECMAScript BinaryDigit: 0 or 1 only). -/
def binVal (c : Char) : Option Nat :=
  if c = '0' then some 0 else if c = '1' then some 1 else none

/-- Hexadecimal digit value. -/
def hexVal (c : Char) : Option Nat :=
  if c.isDigit then some (c.toNat - 48)
  else if 'a' ≤ c ∧ c ≤ 'f' then some (c.toNat - 97 + 10)
  else if 'A' ≤ c ∧ c ≤ 'F' then some (c.toNat - 65 + 10)
  else none

/-- Reads a non-empty digit string in base `b` via `dv`, requiring every
character to be a digit. -/
def parseRadix (dv : Char → Option Nat) (b : Nat) : List Char → Option Nat
  | [] => none
  | [c] => dv c
  | c :: rest => do
    let d ← dv c
    let r ← parseRadix dv b rest
    pure (d * b ^ rest.length + r)

/-- Splits `l` at the first occurrence of a character satisfying `p`. -/
def breakAt (p : Char → Bool) : List Char → List Char × Option (List Char)
  | [] => ([], none)
  | c :: rest =>
    if p c then ([], some rest)
    else
      let (a, b) := breakAt p rest
      (c :: a, b)

/-- Mantissa of a decimal literal: `Digits [. Digits?] | . Digits`, returned
as an exact rational. -/
def parseMantissa (l : List Char) : Option ℚ :=
  let (intPart, fracOpt) := breakAt (· = '.') l
  match fracOpt with
  | none => (parseRadix digitVal 10 intPart).map (fun n => (n : ℚ))
  | some frac =>
    if intPart.isEmpty ∧ frac.isEmpty then none
    else do
      let i ← if intPart.isEmpty then pure 0 else parseRadix digitVal 10 intPart
      let f ← if frac.isEmpty then pure 0 else parseRadix digitVal 10 frac
      pure ((i : ℚ) + (f : ℚ) / (10 : ℚ) ^ frac.length)

/-- Optional sign followed by digits, for exponents. -/
def parseExponent (l : List Char) : Option Int :=
  match l with
  | '+' :: rest => (parseRadix digitVal 10 rest).map Int.ofNat
  | '-' :: rest => (parseRadix digitVal 10 rest).map (fun n => -(n : Int))
  | rest => (parseRadix digitVal 10 rest).map Int.ofNat

/-- An unsigned `StrDecimalLiteral` without the `Infinity` form:
`Mantissa [e Exponent]`, exact rational value. -/
def parseDecimal (l : List Char) : Option ℚ :=
  let (mant, expOpt) := breakAt (fun c => c = 'e' ∨ c = 'E') l
  match expOpt with
  | none => parseMantissa mant
  | some e => do
    let m ← parseMantissa mant
    let x ← parseExponent e
    pure (m * (10 : ℚ) ^ x)

/-- Model of ECMAScript `Number(string)` (ToNumber on strings): trim, empty
means zero, `0x`/`0o`/`0b` radix literals without sign, otherwise an optional
sign followed by `Infinity` or a decimal literal; anything else is `NaN`. -/
def jsNumber (s : String) : JSNum :=
  let t := (jsTrim s).data
  if t.isEmpty then .fin 0
  else
    match t with
    | '0' :: 'x' :: rest => ((parseRadix hexVal 16 rest).map
        (fun n => JSNum.fin (n : ℚ))).getD .nan
    | '0' :: 'X' :: rest => ((parseRadix hexVal 16 rest).map
        (fun n => JSNum.fin (n : ℚ))).getD .nan
    | '0' :: 'o' :: rest => ((parseRadix octVal 8 rest).map
        (fun n => JSNum.fin (n : ℚ))).getD .nan
    | '0' :: 'O' :: rest => ((parseRadix octVal 8 rest).map
        (fun n => JSNum.fin (n : ℚ))).getD .nan
    | '0' :: 'b' :: rest => ((parseRadix binVal 2 rest).map
        (fun n => JSNum.fin (n : ℚ))).getD .nan
    | '0' :: 'B' :: rest => ((parseRadix binVal 2 rest).map
        (fun n => JSNum.fin (n : ℚ))).getD .nan
    | _ =>
      let (neg, body) :=
        match t with
        | '+' :: rest => (false, rest)
        | '-' :: rest => (true, rest)
        | rest => (false, rest)
      if body = "Infinity".data then
        if neg then .negInf else .posInf
      else
        match parseDecimal body with
        | some q => .fin (if neg then -q else q)
        | none => .nan

/-- Decimal digits of the fractional part: the least number of digits that
renders `q`'s fractional part exactly, up to `fuel` digits. -/
def fracDigits (q : ℚ) : Nat → List Char
  | 0 => []
  | fuel + 1 =>
    let q10 := q * 10
    let d := q10.floor
    let rest := q10 - (d : ℚ)
    let c := Char.ofNat (48 + d.toNat)
    if rest = 0 then [c] else c :: fracDigits rest fuel

/-- Model of ECMAScript `String(number)`.  Finite values with a terminating
decimal expansion (all double values qualify) print in positional notation;
exponential notation for very large or very small magnitudes is abstracted
away, and the (unreachable for doubles) non-terminating case falls back to
the floor. -/
def jsString : JSNum → String
  | .nan => "NaN"
  | .posInf => "Infinity"
  | .negInf => "-Infinity"
  | .fin q =>
    if q < 0 then "-" ++ jsStringPos (-q) else jsStringPos q
where
  jsStringPos (q : ℚ) : String :=
    let ip := q.floor.toNat
    let fp := q - (ip : ℚ)
    if fp = 0 then toString ip
    else toString ip ++ "." ++ String.mk (fracDigits fp 110)

/-! ### The preference data mapper (`flattenObject` / `unflattenObject`)

Nested JSON preference objects are modelled by `JValue`: string, number and
boolean leaves plus objects as ordered association lists (JavaScript objects
preserve insertion order and have no duplicate keys).  `null` and array
leaves are omitted from the model: the round-trip claims restrict leaves to
strings, numbers and booleans, and the mapper never recurses into arrays. -/

inductive JValue where
  | vstr (s : String)
  | vnum (n : JSNum)
  | vbool (b : Bool)
  | vobj (es : List (String × JValue))

/-- `String(value)` on the scalar values the mapper stringifies (an object
would print `[object Object]`, but `flattenObject` never stringifies one). -/
def leafString : JValue → String
  | .vstr s => s
  | .vnum n => jsString n
  | .vbool b => if b then "true" else "false"
  | .vobj _ => "[object Object]"

/-- Loop body of the source `flattenObject`: iterate the entries of one
object, extending the dotted prefix, assigning stringified scalars and
`Object.assign`-merging recursive results into the accumulated record. -/
def flattenLoop (pre : String) :
    List (String × JValue) → List (String × String) → List (String × String)
  | [], result => result
  | (key, value) :: rest, result =>
    let fullKey := if pre = "" then key else pre ++ "." ++ key
    match value with
    | .vobj es => flattenLoop pre rest (assignAll result (flattenLoop fullKey es []))
    | .vstr s => flattenLoop pre rest (assocSet result fullKey (leafString (.vstr s)))
    | .vnum n => flattenLoop pre rest (assocSet result fullKey (leafString (.vnum n)))
    | .vbool b => flattenLoop pre rest (assocSet result fullKey (leafString (.vbool b)))

/-- The source `flattenObject(obj, prefix)`: non-objects flatten to the empty
record. -/
def flattenObject (v : JValue) (pre : String) : List (String × String) :=
  match v with
  | .vobj es => flattenLoop pre es []
  | _ => []

/-- Leaf write of the source `unflattenObject`: coerce to the parsed number
when `Number(value)` is not `NaN` and the trimmed string is non-empty,
otherwise keep the string. -/
def coerceLeaf (value : String) : JValue :=
  let numValue := jsNumber value
  if numValue ≠ .nan ∧ jsTrim value ≠ "" then .vnum numValue else .vstr value

/-- Descends along a split dotted path, reusing or creating intermediate
objects (`current[part] ??= {}`) and writing the coerced leaf at the end.
Writing a property on a primitive intermediate value throws a `TypeError`
in strict mode, modelled by `Except.error`.  `jsSplit` never returns an
empty list, so the `[]` case is unreachable. -/
def setPath (obj : List (String × JValue)) :
    List String → String → Except Unit (List (String × JValue))
  | [], _ => .error ()
  | [last], value => .ok (assocSet obj last (coerceLeaf value))
  | part :: p :: parts, value =>
    match lookupAssoc obj part with
    | some (.vobj child) =>
      (setPath child (p :: parts) value).map (fun c => assocSet obj part (.vobj c))
    | some _ => .error ()
    | none =>
      (setPath ([] : List (String × JValue)) (p :: parts) value).map
        (fun c => assocSet obj part (.vobj c))

/-- Fold of the source `unflattenObject` loop over the flat entries. -/
def unflattenFold (flat : List (String × String))
    (acc : List (String × JValue)) : Except Unit (List (String × JValue)) :=
  match flat with
  | [] => .ok acc
  | (key, value) :: rest => do
    let acc' ← setPath acc (jsSplit key '.') value
    unflattenFold rest acc'

/-- The source `unflattenObject(flat)`. -/
def unflattenObject (flat : List (String × String)) :
    Except Unit (List (String × JValue)) :=
  unflattenFold flat []

/-- The value a leaf comes back as after one flatten/unflatten round trip:
its `String(...)` form run through the numeric coercion.  Objects recurse. -/
def normalizeEntries : List (String × JValue) → List (String × JValue)
  | [] => []
  | (k, .vobj es) :: rest => (k, .vobj (normalizeEntries es)) :: normalizeEntries rest
  | (k, .vstr s) :: rest => (k, coerceLeaf (leafString (.vstr s))) :: normalizeEntries rest
  | (k, .vnum n) :: rest => (k, coerceLeaf (leafString (.vnum n))) :: normalizeEntries rest
  | (k, .vbool b) :: rest => (k, coerceLeaf (leafString (.vbool b))) :: normalizeEntries rest

/-- A dotted-path-safe key: non-empty and without `.`. -/
def goodKey (k : String) : Bool :=
  !k.data.isEmpty && !k.data.contains '.'

/-- Whether `rest` already binds key `k`. -/
def hasKey (rest : List (String × JValue)) (k : String) : Bool :=
  rest.any (fun kv => kv.1 = k)

mutual

/-- Structural side conditions under which flattening is injective: keys are
non-empty, dot-free and unique, and nested objects are non-empty. -/
def goodEntries : List (String × JValue) → Bool
  | [] => true
  | (k, v) :: rest =>
    goodKey k && !hasKey rest k && goodValue v && goodEntries rest

def goodValue : JValue → Bool
  | .vstr _ => true
  | .vnum _ => true
  | .vbool _ => true
  | .vobj es => !es.isEmpty && goodEntries es

end

/-! ### Command protocol layer

`extractResponse` and `hasValidResponse` run the regular expressions
`<cmd>:RESPONSE\s*([\s\S]*?)\s*END` and `<cmd>:RESPONSE[\s\S]*END` over the
response text (the command is regex-escaped in the source, i.e. matched
literally).  Both patterns start with the literal marker `<cmd>:RESPONSE`,
so a match begins at its first occurrence; the lazy group then ends at the
first later occurrence of `END`, and the greedy `\s*` borders combined with
the final `.trim()` strip the surrounding whitespace of the payload. -/

/-- Source `extractResponse(text, command)`: the trimmed payload between the
echoed `<command>:RESPONSE` marker and the next `END`, or the whole text
when the pattern does not match. -/
def extractResponse (text command : String) : String :=
  let marker := (command ++ ":RESPONSE").data
  match findSub marker text.data with
  | none => text
  | some i =>
    let rest := text.data.drop (i + marker.length)
    match findSub "END".data rest with
    | none => text
    | some j => jsTrim (String.mk (rest.take j))

/-- Source `hasValidResponse(text, command)`: does the text match
`<command>:RESPONSE[\s\S]*END`? -/
def hasValidResponse (text command : String) : Bool :=
  let marker := (command ++ ":RESPONSE").data
  match findSub marker text.data with
  | none => false
  | some i => (findSub "END".data (text.data.drop (i + marker.length))).isSome

/-- Source constant `COMMAND_TIMEOUT_MS`. -/
def COMMAND_TIMEOUT_MS : Nat := 2000

/-- Source constant `POST_FLASH_DELAY_MS`. -/
def POST_FLASH_DELAY_MS : Nat := 1000

/-- Source constant `POST_PROGRAM_DELAY_MS`. -/
def POST_PROGRAM_DELAY_MS : Nat := 2000

/-- Source constant `MAX_RETRIES`. -/
def MAX_RETRIES : Nat := 3

/-- Source constant `RETRY_DELAY_MS`. -/
def RETRY_DELAY_MS : Nat := 1000

/-- One resolution of `reader.read()` in the `sendCommand` read loop:
`chunk s` is a value (the byte decoder is abstracted to the text it yields,
and an empty chunk is allowed since an empty `Uint8Array` is still truthy),
`closed` is `done: true`, `failed` is a rejected read. -/
inductive ReadOutcome where
  | chunk (s : String)
  | closed
  | failed
deriving DecidableEq, Repr

/-- A pending read that resolves `t` milliseconds after it is issued. -/
structure ReadEvent where
  t : Nat
  out : ReadOutcome
deriving DecidableEq, Repr

/-- The `while (Date.now() < deadline)` loop of the source `sendCommand`:
each iteration races the next read against a timer for the remaining time
(a read resolving at or after the deadline loses the race and the loop
breaks with the partial text), appends decoded chunks, and stops as soon as
the accumulated text contains `END` or `ERROR`; `done` and rejected reads
also break.  An exhausted event list stands for a read that never resolves,
which the timer interrupts. -/
def sendLoop : List ReadEvent → Nat → String → String
  | [], _, response => response
  | e :: rest, now, response =>
    if now < COMMAND_TIMEOUT_MS then
      let remaining := COMMAND_TIMEOUT_MS - now
      if e.t ≥ remaining then response
      else
        match e.out with
        | .closed => response
        | .failed => response
        | .chunk s =>
          let response' := response ++ s
          if containsStr response' "END" || containsStr response' "ERROR" then
            response'
          else sendLoop rest (now + e.t) response'
    else response

/-- Source `sendCommand(command)` given the behaviour of the reader: returns
the text written to the port and the trimmed accumulated response. -/
def sendCommand (events : List ReadEvent) (command : String) :
    String × String :=
  (command ++ "\n", jsTrim (sendLoop events 0 ""))

/-- Spec-side reading of §4.2 (for the refinement proof of the read loop):
the chunks that resolve strictly before the 2000 ms deadline, cut short by a
closed or failed read. -/
def timelyChunks : List ReadEvent → Nat → List String
  | [], _ => []
  | e :: rest, now =>
    if now < COMMAND_TIMEOUT_MS ∧ e.t < COMMAND_TIMEOUT_MS - now then
      match e.out with
      | .chunk s => s :: timelyChunks rest (now + e.t)
      | _ => []
    else []

/-- Spec-side accumulation: concatenate chunks, stopping as soon as the
accumulated text contains `END` or `ERROR`. -/
def accumUntilSentinel : List String → String → String
  | [], acc => acc
  | s :: rest, acc =>
    let acc' := acc ++ s
    if containsStr acc' "END" || containsStr acc' "ERROR" then acc'
    else accumUntilSentinel rest acc'

/-- Events emitted by the retrying send loop. -/
inductive RetryEvent where
  | att (response : String)
  | pause (ms : Nat)
deriving DecidableEq, Repr

/-- Whether attempt number `i` satisfies the source acceptance test
`response && hasValidResponse(response, command)`. -/
def attemptOk (oracle : Nat → String) (command : String) (i : Nat) : Bool :=
  !(oracle i).isEmpty && hasValidResponse (oracle i) command

/-- The `for (attempt = 1; attempt <= MAX_RETRIES; ...)` loop of the source
`sendCommandWithRetry`, with `oracle i` the response `serial.sendCommand`
yields on attempt `i`.  Returns the emitted events (attempts and the fixed
inter-attempt delays) and the outcome. -/
def retryFrom (oracle : Nat → String) (command : String) (attempt : Nat) :
    List RetryEvent × Except String String :=
  if h : attempt ≤ MAX_RETRIES then
    let response := oracle attempt
    if attemptOk oracle command attempt then
      ([.att response], .ok response)
    else
      let tail := retryFrom oracle command (attempt + 1)
      (if attempt < MAX_RETRIES then
          .att response :: .pause RETRY_DELAY_MS :: tail.1
        else .att response :: tail.1,
       tail.2)
  else
    ([], .error ("No valid response after " ++ toString MAX_RETRIES ++ " retries"))
termination_by MAX_RETRIES + 1 - attempt

/-- Source `sendCommandWithRetry(command)`. -/
def sendCommandWithRetry (oracle : Nat → String) (command : String) :
    List RetryEvent × Except String String :=
  retryFrom oracle command 1

/-! ### Transport arbitrator (`useSerialConnection`)

The mutable refs of the hook (`portRef`, `readerRef`, `writerRef`,
`transportRef`, `espLoaderRef`, the `chip` state) become a `Session` record.
Reader and writer handles carry numeric identities drawn from a `fresh`
counter so that "freshly acquired" is expressible; every physical port
operation is recorded in a `PortAction` trace.  The asynchronous I/O calls
are abstracted to their outcomes: chip detection (`loader.main()`) and the
wrapped function are parameters of `withESPTool`. -/

/-- The physical port operations the hook performs, in order. -/
inductive PortAction where
  | cancelRead
  | releaseReader
  | releaseWriter
  | closePort
  | openPort (baud : Nat)
  | getWriter
  | getReader
  | espSync (baud : Nat)
  | espDisconnect
  | waitMs (ms : Nat)
  | espErase
  | espWrite
  | espHardReset
deriving DecidableEq, Repr

/-- The mutable connection state of `useSerialConnection`. -/
structure Session where
  port : Bool
  reader : Option Nat
  writer : Option Nat
  transport : Bool
  loader : Bool
  chip : Option String
  fresh : Nat
deriving DecidableEq, Repr

/-- The session modes of the spec, plus `Torn` for handle states that are
neither fully native nor bound to the flashing capability. -/
inductive Mode where
  | Disconnected
  | NativeOpen
  | FlashExclusive
  | Torn
deriving DecidableEq, Repr

/-- The mode a session is in: no port means disconnected, live native
reader and writer mean the line protocol is open, and a bound transport or
loader means the flashing capability owns the port. -/
def mode (s : Session) : Mode :=
  if !s.port then .Disconnected
  else if s.reader.isSome && s.writer.isSome then .NativeOpen
  else if s.transport || s.loader then .FlashExclusive
  else .Torn

/-- Source `closeNativeSerial`: null the reader/writer refs, then best-effort
cancel the read, release both locks and close the port (each failure is
swallowed, so the model always succeeds). -/
def closeNativeSerial (s : Session) : Session × List PortAction :=
  ({ s with reader := none, writer := none },
   (if s.reader.isSome then [.cancelRead, .releaseReader] else []) ++
   (if s.writer.isSome then [.releaseWriter] else []) ++
   (if s.port then [.closePort] else []))

/-- Source `setupNativeSerial(baudRate)`: reuse (or acquire) the port, open
it, take a fresh writer and reader from its streams and set the chip label.
The claims about the arbitrator all assume the port stays available, so
acquisition and open are modelled as succeeding. -/
def setupNativeSerial (baud : Nat) (s : Session) : Session × List PortAction :=
  ({ s with port := true,
            writer := some s.fresh,
            reader := some (s.fresh + 1),
            fresh := s.fresh + 2,
            chip := some "Native Connection" },
   [.openPort baud, .getWriter, .getReader])

/-- Source `cleanupESPTool`: clear the transport and loader refs and
best-effort disconnect the transport. -/
def cleanupESPTool (s : Session) : Session × List PortAction :=
  ({ s with transport := false, loader := false },
   if s.transport then [.espDisconnect] else [])

/-- Source `setupESPTool(baudRate)`: require a port, bind the transport and
loader to it, then run chip auto-detection (`loader.main()`), whose outcome
`detect` is a parameter — `.ok c` stores the detected chip, `.error e`
propagates out of `setupESPTool` with the transport and loader refs still
set. -/
def setupESPTool (baud : Nat) (detect : Except String String) (s : Session) :
    Except String String × Session × List PortAction :=
  if !s.port then (.error "No device available", s, [])
  else
    let s1 := { s with transport := true, loader := true }
    match detect with
    | .ok c => (.ok c, { s1 with chip := some c }, [.espSync baud])
    | .error e => (.error e, s1, [.espSync baud])

/-- Result of a session-level operation: its outcome, the caller-visible
state it threaded through the wrapped function, the final session and the
trace of port actions. -/
structure SessResult (α : Type) where
  outcome : Except String Unit
  val : α
  session : Session
  trace : List PortAction

/-- Source `withESPTool(baudRate, fn, postDelay)`.  `detect` is the outcome
of chip detection and `fn` the wrapped erase/program logic, modelled as a
function of the caller state `a` returning its outcome, updated state and
port actions.  Faithful to the source, only the call to `fn` sits inside
`try`/`finally`: a detection failure returns before the `try`, so neither
`cleanupESPTool` nor the native reopen runs in that case. -/
def withESPTool (α : Type) (s : Session) (baud postDelay : Nat)
    (detect : Except String String)
    (fn : α → Except String Unit × α × List PortAction) (a : α) :
    SessResult α :=
  let (s1, t1) := closeNativeSerial s
  match setupESPTool baud detect s1 with
  | (.error e, s2, t2) => ⟨.error e, a, s2, t1 ++ t2⟩
  | (.ok _, s2, t2) =>
    let (fnOut, a', tFn) := fn a
    let (s3, t3) := cleanupESPTool s2
    let (s4, t4) := setupNativeSerial baud s3
    ⟨fnOut, a', s4, t1 ++ t2 ++ tFn ++ t3 ++ [.waitMs postDelay] ++ t4⟩

/-! ### Flash operation orchestrator (`useFlashOperations`) -/

/-- The orchestrator state: busy flags and the 0–100 progress value. -/
structure FlashOps where
  isErasing : Bool
  isProgramming : Bool
  progress : ℚ
deriving DecidableEq, Repr

/-- Source `eraseFlash()`: set the busy flag, run
`withESPTool(baudRate, loader => loader.eraseFlash())`, and clear the flag
in the `finally`.  `eraseOutcome` is the outcome of `loader.eraseFlash()`.
There is no check of the busy flags before proceeding. -/
def eraseFlashOp (fs : FlashOps) (s : Session) (baud : Nat)
    (detect : Except String String) (eraseOutcome : Except String Unit) :
    SessResult FlashOps :=
  let fs1 := { fs with isErasing := true }
  let r := withESPTool FlashOps s baud POST_FLASH_DELAY_MS detect
    (fun a => (eraseOutcome, a, [.espErase])) fs1
  { r with val := { r.val with isErasing := false } }

/-- Source `programFlash(fileData, address)`: set the busy flag, zero the
progress, run `withESPTool` with the longer post-program delay around
`writeFlash` (whose `reportProgress` callback sets
`progress := written / total * 100` for each reported pair; rational
division by a zero total yields `0` where JavaScript would give `NaN`)
followed by `loader.after("hard_reset")` on success, and reset flag and
progress in the `finally`.  `writeOutcome` is the outcome of the write. -/
def programFlashOp (fs : FlashOps) (s : Session) (baud : Nat)
    (detect : Except String String) (writeOutcome : Except String Unit)
    (progressEvents : List (Nat × Nat)) : SessResult FlashOps :=
  let fs1 := { fs with isProgramming := true, progress := 0 }
  let fn : FlashOps → Except String Unit × FlashOps × List PortAction :=
    fun a =>
      let a' := progressEvents.foldl
        (fun acc p => { acc with progress := (p.1 : ℚ) / (p.2 : ℚ) * 100 }) a
      match writeOutcome with
      | .ok _ => (.ok (), a', [.espWrite, .espHardReset])
      | .error e => (.error e, a', [.espWrite])
  let r := withESPTool FlashOps s baud POST_PROGRAM_DELAY_MS detect fn fs1
  { r with val := { r.val with isProgramming := false, progress := 0 } }

/-! ### Preference update (`updateAllSettings`) -/

/-- The hook state `updateAllSettings` touches. -/
structure PrefState where
  isUpdating : Bool
deriving DecidableEq, Repr

/-- Source `updateAllSettings()`: validate the textarea contents before any
device traffic — an empty trimmed text throws `No preferences data` and an
unparseable one `Invalid JSON format`; only then is the busy flag set and
`SET_PREFS:<json>` sent.  `parse` models `JSON.parse` followed by
`JSON.stringify` (the reserialised JSON on success), `deviceResponse` the
reply `serial.sendCommand` returns.  The returned list is the commands sent
over the port. -/
def updateAllSettings (prefs : String) (parse : String → Option String)
    (deviceResponse : String) (st : PrefState) :
    Except String String × PrefState × List String :=
  let trimmed := jsTrim prefs
  if trimmed.isEmpty then (.error "No preferences data", st, [])
  else
    match parse trimmed with
    | none => (.error "Invalid JSON format", st, [])
    | some j =>
      let st1 := { st with isUpdating := true }
      let sent := ["SET_PREFS:" ++ j]
      let res : Except String String :=
        if containsStr deviceResponse "ERROR" then
          .error ("Update failed: " ++ deviceResponse)
        else .ok ("Response: " ++ deviceResponse)
      (res, { st1 with isUpdating := false }, sent)

/-! ### Binary transcoder (`helpers.ts`) -/

/-- Source `arrayBufferToBinaryString(buffer)`: fold over the bytes,
appending `String.fromCharCode(byte)` to the result.  Bytes are below 256
(a `Uint8Array`), for which `fromCharCode` yields the character with that
code point. -/
def arrayBufferToBinaryString (bytes : List Nat) : String :=
  bytes.foldl (fun result b => result ++ String.singleton (Char.ofNat b)) ""

/-- `idBelow o n` says the handle identity in `o` (if any) was allocated
before counter value `n`. -/
def idBelow : Option Nat → Nat → Bool
  | none, _ => true
  | some j, n => decide (j < n)

/-! ### Supporting lemmas -/

theorem data_append (a b : String) : (a ++ b).data = a.data ++ b.data :=
  String.data_append a b

theorem beginsWith_mem {hay pat : List Char} (h : beginsWith hay pat = true) :
    ∀ c ∈ pat, c ∈ hay := by
  induction pat generalizing hay with
  | nil => intro c hc; cases hc
  | cons b bs ih =>
    match hay with
    | [] => simp [beginsWith] at h
    | a :: as =>
      simp only [beginsWith, Bool.and_eq_true, decide_eq_true_eq] at h
      intro c hc
      rcases List.mem_cons.mp hc with rfl | hmem
      · exact h.1 ▸ List.mem_cons_self _ _
      · exact List.mem_cons_of_mem _ (ih h.2 c hmem)

theorem findSub_mem {pat hay : List Char} {i : Nat}
    (h : findSub pat hay = some i) : ∀ c ∈ pat, c ∈ hay := by
  induction hay generalizing i with
  | nil =>
    simp only [findSub] at h
    split at h
    · next hp => intro c hc; simp [List.isEmpty_iff.mp hp] at hc
    · cases h
  | cons a as ih =>
    simp only [findSub] at h
    split at h
    · next hb => exact beginsWith_mem hb
    · intro c hc
      rcases hi : findSub pat as with _ | j
      · rw [hi] at h; cases h
      · exact List.mem_cons_of_mem _ (ih hi c hc)

theorem char_toNat_ofNat {n : Nat} (h : n < 256) : (Char.ofNat n).toNat = n := by
  have hv : n.isValidChar := Or.inl (by omega)
  simp only [Char.ofNat, hv, dif_pos, Char.ofNatAux, Char.toNat]
  exact BitVec.toNat_ofNatLt n _

theorem abbs_data (bytes : List Nat) :
    ∀ init : String,
      (bytes.foldl (fun r b => r ++ String.singleton (Char.ofNat b)) init).data =
        init.data ++ bytes.map Char.ofNat := by
  induction bytes with
  | nil => intro init; simp
  | cons b bs ih =>
    intro init
    simp only [List.foldl_cons, List.map_cons, ih, data_append]
    simp [String.singleton]

/-! ### Claim C6 -/

/-- Claim C6: on the response text `GET_PREFS:RESPONSE {"a":1} END` with
command `GET_PREFS`, `extractResponse` returns the trimmed payload
`{"a":1}` and `hasValidResponse` is true; on `ERROR bad state`, which has
no `END`, `hasValidResponse` is false for every command (the text cannot
even contain the `<command>:RESPONSE` marker, having no colon). -/
theorem c6_response_framing :
    extractResponse "GET_PREFS:RESPONSE \x7b\"a\":1\x7d END" "GET_PREFS" = "\x7b\"a\":1\x7d"
      ∧ hasValidResponse "GET_PREFS:RESPONSE \x7b\"a\":1\x7d END" "GET_PREFS" = true
      ∧ ∀ command : String, hasValidResponse "ERROR bad state" command = false := by
  refine ⟨by decide, by decide, ?_⟩
  intro command
  rcases h : findSub (command ++ ":RESPONSE").data "ERROR bad state".data with _ | i
  · simp only [hasValidResponse]
    rw [h]
  · exfalso
    have hmem : (':' : Char) ∈ "ERROR bad state".data := by
      refine findSub_mem h ':' ?_
      rw [data_append]
      exact List.mem_append_right _ (by decide)
    revert hmem
    decide

/-! ### Claim C10 -/

/-- Claim C10: `arrayBufferToBinaryString` produces one character per input
byte, and the character at index `i` has code point equal to byte `i`
(hence below 256), so the byte content is recoverable from the string. -/
theorem c10_binary_string (bytes : List Nat) (h : ∀ b ∈ bytes, b < 256) :
    (arrayBufferToBinaryString bytes).data.length = bytes.length
      ∧ ∀ i, i < bytes.length →
          ((arrayBufferToBinaryString bytes).data.getD i ' ').toNat = bytes.getD i 0
            ∧ ((arrayBufferToBinaryString bytes).data.getD i ' ').toNat < 256 := by
  have hdata : (arrayBufferToBinaryString bytes).data = bytes.map Char.ofNat := by
    simpa using abbs_data bytes ""
  constructor
  · rw [hdata, List.length_map]
  · intro i hi
    have hb : bytes.getD i 0 ∈ bytes := by
      rw [List.getD_eq_getElem bytes 0 hi]
      exact List.getElem_mem hi
    have hlt : bytes.getD i 0 < 256 := h _ hb
    have hget : (arrayBufferToBinaryString bytes).data.getD i ' ' =
        Char.ofNat (bytes.getD i 0) := by
      rw [hdata, List.getD_eq_getElem _ _ (by simpa using hi),
        List.getD_eq_getElem bytes 0 hi, List.getElem_map]
    rw [hget, char_toNat_ofNat hlt]
    exact ⟨rfl, hlt⟩

/-- Witness for C10 at a concrete buffer. -/
theorem c10_witness :
    (arrayBufferToBinaryString [72, 255, 0]).data.length = 3
      ∧ ((arrayBufferToBinaryString [72, 255, 0]).data.getD 1 ' ').toNat = 255 := by
  have h := c10_binary_string [72, 255, 0] (by decide)
  exact ⟨h.1, (h.2 1 (by decide)).1⟩

/-! ### Claim C9 -/

/-- Claim C9: `updateAllSettings` validates before any device traffic — an
empty trimmed preferences text fails with `No preferences data` and an
unparseable one with `Invalid JSON format`, in both cases sending no
command and leaving the state unchanged. -/
theorem c9_validation_first (prefs : String) (parse : String → Option String)
    (deviceResponse : String) (st : PrefState) :
    ((jsTrim prefs).isEmpty = true →
        updateAllSettings prefs parse deviceResponse st =
          (.error "No preferences data", st, []))
      ∧ ((jsTrim prefs).isEmpty = false → parse (jsTrim prefs) = none →
        updateAllSettings prefs parse deviceResponse st =
          (.error "Invalid JSON format", st, [])) := by
  constructor
  · intro h
    simp [updateAllSettings, h]
  · intro h hp
    simp [updateAllSettings, h, hp]

/-- Witness for C9: malformed JSON is rejected with no command sent. -/
theorem c9_witness :
    updateAllSettings "\x7bbad" (fun _ => none) "OK END" ⟨false⟩ =
      (.error "Invalid JSON format", ⟨false⟩, []) :=
  (c9_validation_first "\x7bbad" (fun _ => none) "OK END" ⟨false⟩).2 (by decide) rfl

/-! ### Claim C3 -/

/-- Claim C3: the retrying send performs at most `MAX_RETRIES = 3` total
send+read attempts with a fixed 1000 ms pause between attempts, returns the
first non-empty response passing `hasValidResponse`, and after three
failures throws `No valid response after 3 retries`.  The statement is a
complete characterisation of `sendCommandWithRetry` by the acceptance tests
of the three attempts. -/
theorem c3_retry_policy (oracle : Nat → String) (command : String) :
    sendCommandWithRetry oracle command =
      if attemptOk oracle command 1 then
        ([.att (oracle 1)], .ok (oracle 1))
      else if attemptOk oracle command 2 then
        ([.att (oracle 1), .pause 1000, .att (oracle 2)], .ok (oracle 2))
      else if attemptOk oracle command 3 then
        ([.att (oracle 1), .pause 1000, .att (oracle 2), .pause 1000,
          .att (oracle 3)], .ok (oracle 3))
      else
        ([.att (oracle 1), .pause 1000, .att (oracle 2), .pause 1000,
          .att (oracle 3)], .error "No valid response after 3 retries") := by
  by_cases h1 : attemptOk oracle command 1
  · simp [sendCommandWithRetry, retryFrom, MAX_RETRIES, h1]
  · by_cases h2 : attemptOk oracle command 2
    · simp [sendCommandWithRetry, retryFrom, MAX_RETRIES, RETRY_DELAY_MS, h1, h2]
    · by_cases h3 : attemptOk oracle command 3
      · simp [sendCommandWithRetry, retryFrom, MAX_RETRIES, RETRY_DELAY_MS, h1, h2, h3]
      · simp [sendCommandWithRetry, retryFrom, MAX_RETRIES, RETRY_DELAY_MS, h1, h2, h3]
        decide

/-! ### Claims C1, C4 and C8 -/

/-- A session with the line protocol open: port held, native reader and
writer acquired (identities 0 and 1, counter at 2). -/
def nativeSession : Session :=
  ⟨true, some 0, some 1, false, false, some "Native Connection", 2⟩

/-- Orchestrator state with an erase operation already in flight. -/
def busyFlags : FlashOps := ⟨true, false, 0⟩

/-- Counterexample to claim C1: when chip detection (`loader.main()` inside
`setupESPTool`) throws while the port is still available, `withESPTool`
returns before entering its `try`/`finally`, so the native reopen never
runs: the session is left with the flashing transport bound and no native
reader/writer — mode `FlashExclusive`, not the claimed `NativeOpen`. -/
theorem c1_detect_throw_not_restored :
    mode (withESPTool Unit nativeSession 115200 1000
        (.error "Failed to connect") (fun a => (.ok (), a, [])) ()).session
      = Mode.FlashExclusive
    ∧ (withESPTool Unit nativeSession 115200 1000
        (.error "Failed to connect") (fun a => (.ok (), a, [])) ()).session.reader
      = none := by
  decide

/-- Claim C1 (amended): when chip detection succeeds and the port stays
available, `withESPTool` restores mode `NativeOpen` whether the wrapped
function returns or throws, its outcome surfaces unchanged, and the reader
and writer are freshly acquired handles distinct from every stale one. -/
theorem c1_native_restored_fresh (α : Type) (s : Session)
    (baud postDelay : Nat) (chipName : String)
    (fn : α → Except String Unit × α × List PortAction) (a : α)
    (hport : s.port = true) (hr : idBelow s.reader s.fresh = true)
    (hw : idBelow s.writer s.fresh = true) :
    mode (withESPTool α s baud postDelay (.ok chipName) fn a).session
        = .NativeOpen
      ∧ (withESPTool α s baud postDelay (.ok chipName) fn a).outcome = (fn a).1
      ∧ (withESPTool α s baud postDelay (.ok chipName) fn a).session.writer
          = some s.fresh
      ∧ (withESPTool α s baud postDelay (.ok chipName) fn a).session.reader
          = some (s.fresh + 1)
      ∧ (withESPTool α s baud postDelay (.ok chipName) fn a).session.writer
          ≠ s.writer
      ∧ (withESPTool α s baud postDelay (.ok chipName) fn a).session.reader
          ≠ s.reader := by
  rcases hfa : fn a with ⟨fnOut, a', tFn⟩
  simp only [withESPTool, closeNativeSerial, setupESPTool, cleanupESPTool,
    setupNativeSerial, hport, hfa, mode, Bool.not_true, Bool.false_eq_true,
    if_false, Option.isSome_some, Bool.and_self, if_true]
  refine ⟨trivial, trivial, trivial, trivial, ?_, ?_⟩
  · cases hwv : s.writer with
    | none => simp
    | some j =>
      rw [hwv] at hw
      simp only [idBelow, decide_eq_true_eq] at hw
      simp only [ne_eq, Option.some.injEq]
      omega
  · cases hrv : s.reader with
    | none => simp
    | some j =>
      rw [hrv] at hr
      simp only [idBelow, decide_eq_true_eq] at hr
      simp only [ne_eq, Option.some.injEq]
      omega

/-- Witness for C1 at a session whose wrapped function throws. -/
theorem c1_witness :
    mode (withESPTool Unit nativeSession 115200 1000 (.ok "ESP32-C3")
        (fun a => (.error "flash failed", a, [.espErase])) ()).session
        = .NativeOpen
      ∧ (withESPTool Unit nativeSession 115200 1000 (.ok "ESP32-C3")
          (fun a => (.error "flash failed", a, [.espErase])) ()).outcome
        = .error "flash failed"
      ∧ (withESPTool Unit nativeSession 115200 1000 (.ok "ESP32-C3")
          (fun a => (.error "flash failed", a, [.espErase])) ()).session.reader
        ≠ nativeSession.reader := by
  have h := c1_native_restored_fresh Unit nativeSession 115200 1000 "ESP32-C3"
    (fun a => (.error "flash failed", a, [.espErase])) ()
    (by decide) (by decide) (by decide)
  exact ⟨h.1, h.2.1, h.2.2.2.2.2⟩

/-- Counterexample to claim C4: a second flashing operation entered while
`isErasing` is already set is not rejected — `eraseFlash` has no busy-flag
check, so it proceeds to close the port, rebind it to the flashing
capability and erase. -/
theorem c4_overlap_not_rejected :
    (eraseFlashOp busyFlags nativeSession 115200 (.ok "ESP32") (.ok ())).outcome
        = .ok ()
      ∧ (eraseFlashOp busyFlags nativeSession 115200
          (.ok "ESP32") (.ok ())).trace ≠ []
      ∧ PortAction.closePort
          ∈ (eraseFlashOp busyFlags nativeSession 115200
              (.ok "ESP32") (.ok ())).trace := by
  refine ⟨rfl, by decide, by decide⟩

/-- Claim C4 (amended): the orchestrator and arbitrator never consult the
busy flags — an overlapping `eraseFlash` behaves identically whatever the
flags say, and whenever a port is held it touches it (the first action of
`withESPTool` closes the native port).  Serialisation is left entirely to
the callers. -/
theorem c4_no_reentrancy_guard (fs fsB : FlashOps) (s : Session) (baud : Nat)
    (detect : Except String String) (eo : Except String Unit) :
    (eraseFlashOp fs s baud detect eo).outcome
        = (eraseFlashOp fsB s baud detect eo).outcome
      ∧ (eraseFlashOp fs s baud detect eo).session
        = (eraseFlashOp fsB s baud detect eo).session
      ∧ (eraseFlashOp fs s baud detect eo).trace
        = (eraseFlashOp fsB s baud detect eo).trace
      ∧ (s.port = true →
          PortAction.closePort ∈ (eraseFlashOp fs s baud detect eo).trace) := by
  refine ⟨?_, ?_, ?_, ?_⟩ <;>
    simp only [eraseFlashOp, withESPTool, closeNativeSerial, setupESPTool,
      cleanupESPTool, setupNativeSerial]
  · rcases detect with e | c <;> cases hp : s.port <;> simp
  · rcases detect with e | c <;> cases hp : s.port <;> simp
  · rcases detect with e | c <;> cases hp : s.port <;> simp
  · intro hport
    rcases detect with e | c <;> simp [hport]

/-- Witness for C4: the trace is the same with clear flags as with the busy
flag set, and the port is touched. -/
theorem c4_witness :
    (eraseFlashOp ⟨false, false, 0⟩ nativeSession 115200
        (.ok "ESP32") (.ok ())).trace
      = (eraseFlashOp busyFlags nativeSession 115200
          (.ok "ESP32") (.ok ())).trace
    ∧ PortAction.closePort
        ∈ (eraseFlashOp ⟨false, false, 0⟩ nativeSession 115200
            (.ok "ESP32") (.ok ())).trace :=
  ⟨(c4_no_reentrancy_guard ⟨false, false, 0⟩ busyFlags nativeSession 115200
      (.ok "ESP32") (.ok ())).2.2.1,
   (c4_no_reentrancy_guard ⟨false, false, 0⟩ busyFlags nativeSession 115200
      (.ok "ESP32") (.ok ())).2.2.2 rfl⟩

/-- Claim C8: `eraseFlash` clears `isErasing` on every path, `programFlash`
resets `isProgramming` and `progress` on every path, and the underlying
error — a failed chip detection as well as a failed erase/write — surfaces
unchanged (given a port; without one the arbitrator's own
`No device available` error surfaces, again untranslated). -/
theorem c8_guaranteed_cleanup (fs : FlashOps) (s : Session) (baud : Nat)
    (detect : Except String String) (eo wo : Except String Unit)
    (pev : List (Nat × Nat)) :
    (eraseFlashOp fs s baud detect eo).val.isErasing = false
      ∧ (programFlashOp fs s baud detect wo pev).val.isProgramming = false
      ∧ (programFlashOp fs s baud detect wo pev).val.progress = 0
      ∧ (s.port = true → ∀ e, detect = .error e →
          (eraseFlashOp fs s baud detect eo).outcome = .error e
            ∧ (programFlashOp fs s baud detect wo pev).outcome = .error e)
      ∧ (s.port = true → ∀ c, detect = .ok c →
          (eraseFlashOp fs s baud detect eo).outcome = eo
            ∧ (programFlashOp fs s baud detect wo pev).outcome = wo) := by
  refine ⟨?_, ?_, ?_, ?_, ?_⟩
  · rcases detect with e | c <;> cases hp : s.port <;>
      simp [eraseFlashOp, withESPTool, closeNativeSerial, setupESPTool,
        cleanupESPTool, setupNativeSerial, hp]
  · rcases detect with e | c <;> cases hp : s.port <;> rcases wo with e2 | u <;>
      simp [programFlashOp, withESPTool, closeNativeSerial, setupESPTool,
        cleanupESPTool, setupNativeSerial, hp]
  · rcases detect with e | c <;> cases hp : s.port <;> rcases wo with e2 | u <;>
      simp [programFlashOp, withESPTool, closeNativeSerial, setupESPTool,
        cleanupESPTool, setupNativeSerial, hp]
  · rintro hp e rfl
    constructor <;>
      simp [eraseFlashOp, programFlashOp, withESPTool, closeNativeSerial,
        setupESPTool, cleanupESPTool, setupNativeSerial, hp]
  · rintro hp c rfl
    constructor
    · simp [eraseFlashOp, withESPTool, closeNativeSerial, setupESPTool,
        cleanupESPTool, setupNativeSerial, hp]
    · rcases wo with e2 | u <;>
        simp [programFlashOp, withESPTool, closeNativeSerial, setupESPTool,
          cleanupESPTool, setupNativeSerial, hp]

/-- Witness for C8: a failed write still resets the flags and surfaces the
write error. -/
theorem c8_witness :
    (programFlashOp busyFlags nativeSession 115200 (.ok "ESP32")
        (.error "write failed") [(1, 2)]).val.isProgramming = false
      ∧ (programFlashOp busyFlags nativeSession 115200 (.ok "ESP32")
          (.error "write failed") [(1, 2)]).val.progress = 0
      ∧ (programFlashOp busyFlags nativeSession 115200 (.ok "ESP32")
          (.error "write failed") [(1, 2)]).outcome = .error "write failed" := by
  have h := c8_guaranteed_cleanup busyFlags nativeSession 115200 (.ok "ESP32")
    (.ok ()) (.error "write failed") [(1, 2)]
  exact ⟨h.2.1, h.2.2.1, ((h.2.2.2.2 rfl "ESP32" rfl).2)⟩

/-! ### Claim C7 -/

theorem splitChar_cons (c x : Char) (xs : List Char) :
    splitChar c (x :: xs) =
      match splitChar c xs with
      | [] => [[]]
      | g :: gs => if x = c then [] :: g :: gs else (x :: g) :: gs := rfl

theorem splitChar_ne_nil {c : Char} : ∀ (l : List Char), splitChar c l ≠ [] := by
  intro l
  cases l with
  | nil => simp [splitChar]
  | cons x xs =>
    rw [splitChar_cons]
    cases hs : splitChar c xs with
    | nil => simp
    | cons g gs => by_cases hx : x = c <;> simp [hx]

theorem splitChar_no_sep {c : Char} :
    ∀ {l : List Char}, c ∉ l → splitChar c l = [l] := by
  intro l
  induction l with
  | nil => intro _; rfl
  | cons x xs ih =>
    intro h
    simp only [List.mem_cons, not_or] at h
    rw [splitChar_cons, ih h.2]
    simp only
    rw [if_neg (Ne.symm h.1)]

theorem splitChar_append {c : Char} :
    ∀ (l1 l2 : List Char), c ∉ l1 →
      splitChar c (l1 ++ c :: l2) = l1 :: splitChar c l2 := by
  intro l1
  induction l1 with
  | nil =>
    intro l2 _
    rw [List.nil_append, splitChar_cons]
    cases hs : splitChar c l2 with
    | nil => exact absurd hs (splitChar_ne_nil l2)
    | cons g gs => simp [← hs]
  | cons x xs ih =>
    intro l2 h
    simp only [List.mem_cons, not_or] at h
    rw [List.cons_append, splitChar_cons, ih l2 h.2]
    simp only
    rw [if_neg (Ne.symm h.1)]

theorem jsSplit_no_dot {k : String} (h : ('.' : Char) ∉ k.data) :
    jsSplit k '.' = [k] := by
  simp [jsSplit, splitChar_no_sep h]

/-- A fresh key appends: property write on an object without that key. -/
theorem assocSet_fresh {α : Type} :
    ∀ {m : List (String × α)} {k : String} {v : α},
      k ∉ m.map Prod.fst → assocSet m k v = m ++ [(k, v)] := by
  intro m
  induction m with
  | nil => intro k v _; rfl
  | cons kv rest ih =>
    intro k v h
    simp only [List.map_cons, List.mem_cons, not_or] at h
    simp only [assocSet]
    rw [if_neg (Ne.symm h.1), ih h.2]
    rfl

/-- Unflattening a record whose keys are all dot-free just folds the
coerced leaf writes. -/
theorem unflattenFold_flat :
    ∀ (flat : List (String × String)) (acc : List (String × JValue)),
      (∀ kv ∈ flat, ('.' : Char) ∉ kv.1.data) →
      unflattenFold flat acc =
        .ok (flat.foldl (fun m kv => assocSet m kv.1 (coerceLeaf kv.2)) acc) := by
  intro flat
  induction flat with
  | nil => intro acc _; rfl
  | cons kv rest ih =>
    intro acc h
    have hk : ('.' : Char) ∉ kv.1.data := h kv (List.mem_cons_self _ _)
    obtain ⟨k, v⟩ := kv
    simp only [unflattenFold, jsSplit_no_dot hk, setPath, Except.bind]
    exact ih _ (fun kv2 h2 => h kv2 (List.mem_cons_of_mem _ h2))

/-- Folding fresh leaf writes over a record is a map. -/
theorem foldl_assocSet_fresh :
    ∀ (flat : List (String × String)) (acc : List (String × JValue)),
      (flat.map Prod.fst).Nodup →
      (∀ k ∈ flat.map Prod.fst, k ∉ acc.map Prod.fst) →
      flat.foldl (fun m kv => assocSet m kv.1 (coerceLeaf kv.2)) acc =
        acc ++ flat.map (fun kv => (kv.1, coerceLeaf kv.2)) := by
  intro flat
  induction flat with
  | nil => intro acc _ _; simp
  | cons kv rest ih =>
    intro acc hnd hdisj
    simp only [List.map_cons, List.nodup_cons] at hnd
    have hfresh : kv.1 ∉ acc.map Prod.fst := hdisj kv.1 (by simp)
    simp only [List.foldl_cons, assocSet_fresh hfresh]
    rw [ih (acc ++ [(kv.1, coerceLeaf kv.2)]) hnd.2]
    · simp
    · intro k hk
      simp only [List.map_append, List.map_cons, List.map_nil, List.mem_append,
        List.mem_singleton, not_or]
      refine ⟨hdisj k (List.mem_cons_of_mem _ hk), ?_⟩
      intro hEq
      exact hnd.1 (hEq ▸ hk)

/-- Counterexample to claim C7: the string `"Infinity"` does not parse as a
finite number, yet `unflattenObject` stores it as the number `Infinity`
(the source tests `!Number.isNaN(...)`, not `Number.isFinite(...)`). -/
theorem c7_infinity_stored_as_number :
    unflattenObject [("k", "Infinity")] =
      .ok [("k", JValue.vnum JSNum.posInf)] := by
  rfl

/-- Claim C7 (amended): `unflattenObject` writes each leaf as a number
exactly when the trimmed string is non-empty and `Number(...)` parsing is
not `NaN` — which admits `Infinity` besides finite values — and otherwise
keeps the string; in particular an empty string is stored as the empty
string. -/
theorem c7_leaf_coercion (flat : List (String × String))
    (hdots : ∀ kv ∈ flat, ('.' : Char) ∉ kv.1.data)
    (hnd : (flat.map Prod.fst).Nodup) :
    unflattenObject flat = .ok (flat.map (fun kv => (kv.1, coerceLeaf kv.2)))
      ∧ (∀ v, coerceLeaf v =
          if jsNumber v ≠ .nan ∧ jsTrim v ≠ "" then .vnum (jsNumber v)
          else .vstr v)
      ∧ coerceLeaf "" = .vstr "" := by
  refine ⟨?_, fun v => rfl, rfl⟩
  rw [unflattenObject, unflattenFold_flat flat [] hdots,
    foldl_assocSet_fresh flat [] hnd (by simp)]
  rfl

/-- Witness for C7: a numeric-looking string becomes a number, the empty
string stays the empty string. -/
theorem c7_witness :
    unflattenObject [("a", "08"), ("b", "")] =
      .ok [("a", coerceLeaf "08"), ("b", coerceLeaf "")] :=
  (c7_leaf_coercion [("a", "08"), ("b", "")] (by decide) (by decide)).1

/-! ### Claim C5 -/

/-- The implementation read loop refines the spec-side accumulation: for any
reader behaviour the loop yields exactly the concatenation of the chunks
that resolve before the deadline, cut short at the first sentinel. -/
theorem sendLoop_eq_spec :
    ∀ (events : List ReadEvent) (now : Nat) (acc : String),
      sendLoop events now acc =
        accumUntilSentinel (timelyChunks events now) acc := by
  intro events
  induction events with
  | nil => intro now acc; rfl
  | cons e rest ih =>
    intro now acc
    by_cases h1 : now < COMMAND_TIMEOUT_MS
    · by_cases h2 : e.t < COMMAND_TIMEOUT_MS - now
      · have hlate : ¬ e.t ≥ COMMAND_TIMEOUT_MS - now := by omega
        cases ho : e.out with
        | chunk s =>
          simp only [sendLoop, timelyChunks, ho, if_pos h1, if_pos (And.intro h1 h2),
            if_neg hlate, accumUntilSentinel]
          by_cases h3 :
              (containsStr (acc ++ s) "END" || containsStr (acc ++ s) "ERROR") = true
          · rw [if_pos h3, if_pos h3]
          · rw [if_neg h3, if_neg h3, ih]
        | closed =>
          simp only [sendLoop, timelyChunks, ho, if_pos h1, if_pos (And.intro h1 h2),
            if_neg hlate, accumUntilSentinel]
        | failed =>
          simp only [sendLoop, timelyChunks, ho, if_pos h1, if_pos (And.intro h1 h2),
            if_neg hlate, accumUntilSentinel]
      · have hlate : e.t ≥ COMMAND_TIMEOUT_MS - now := by omega
        have hcond : ¬ (now < COMMAND_TIMEOUT_MS ∧ e.t < COMMAND_TIMEOUT_MS - now) := by
          omega
        simp only [sendLoop, timelyChunks, if_pos h1, if_pos hlate,
          if_neg hcond, accumUntilSentinel]
    · have hcond : ¬ (now < COMMAND_TIMEOUT_MS ∧ e.t < COMMAND_TIMEOUT_MS - now) := by
        omega
      simp only [sendLoop, timelyChunks, if_neg h1, if_neg hcond, accumUntilSentinel]

/-- Claim C5: `sendCommand` writes the command with a newline appended, and
returns — with no timeout error, as a plain value — the trimmed
concatenation of the chunks that arrived before the 2000 ms deadline,
stopping as soon as the accumulated text contains `END` or `ERROR` and
otherwise keeping the (possibly empty) partial text. -/
theorem c5_send_command (events : List ReadEvent) (command : String) :
    (sendCommand events command).1 = command ++ "\n"
      ∧ (sendCommand events command).2 =
          jsTrim (accumUntilSentinel (timelyChunks events 0) "") :=
  ⟨rfl, congrArg jsTrim (sendLoop_eq_spec events 0 "")⟩

/-! ### Claim C2: round-trip machinery

`flatCat` is the closed-form description of `flattenObject` on a
well-formed object (distinct, non-empty, dot-free keys, no empty nested
objects): one flat binding per leaf and concatenation across entries.  The
round trip is proved by relating `flattenLoop` to `flatCat` and then
folding `unflattenObject` over it. -/

def flatCat (pre : String) : List (String × JValue) → List (String × String)
  | [] => []
  | (k, v) :: rest =>
    let fullKey := if pre = "" then k else pre ++ "." ++ k
    match v with
    | .vobj es => flatCat fullKey es ++ flatCat pre rest
    | .vstr s => (fullKey, leafString (.vstr s)) :: flatCat pre rest
    | .vnum n => (fullKey, leafString (.vnum n)) :: flatCat pre rest
    | .vbool b => (fullKey, leafString (.vbool b)) :: flatCat pre rest

theorem string_ext {a b : String} (h : a.data = b.data) : a = b := by
  cases a; cases b; simp at h; rw [h]

theorem data_dot_append (k p : String) :
    (k ++ "." ++ p).data = k.data ++ '.' :: p.data := by
  rw [data_append, data_append]
  simp

theorem dot_append_ne_empty (k p : String) : k ++ "." ++ p ≠ "" := by
  intro h
  have := congrArg String.data h
  rw [data_dot_append] at this
  simpa using congrArg List.length this

theorem dot_append_assoc (a b p : String) :
    a ++ "." ++ (b ++ "." ++ p) = (a ++ "." ++ b) ++ "." ++ p := by
  apply string_ext
  rw [data_dot_append, data_dot_append, data_dot_append, data_dot_append]
  simp

theorem dot_append_right_cancel {k p1 p2 : String}
    (h : k ++ "." ++ p1 = k ++ "." ++ p2) : p1 = p2 := by
  have hd := congrArg String.data h
  rw [data_dot_append, data_dot_append] at hd
  exact string_ext (List.cons_injective.eq_iff.mp (List.append_cancel_left hd))

/-- Two dot-free prefixes followed by a dot separator must coincide. -/
theorem dotfree_sep :
    ∀ {a b x y : List Char}, ('.' : Char) ∉ a → ('.' : Char) ∉ b →
      a ++ '.' :: x = b ++ '.' :: y → a = b ∧ x = y := by
  intro a
  induction a with
  | nil =>
    intro b x y _ hb h
    cases b with
    | nil => simpa using h
    | cons d bs =>
      simp only [List.nil_append, List.cons_append, List.cons.injEq] at h
      refine absurd ?_ hb
      rw [← h.1]
      exact List.mem_cons_self '.' bs
  | cons c as ih =>
    intro b x y ha hb h
    cases b with
    | nil =>
      simp only [List.cons_append, List.nil_append, List.cons.injEq] at h
      refine absurd ?_ ha
      rw [h.1]
      exact List.mem_cons_self '.' as
    | cons d bs =>
      simp only [List.cons_append, List.cons.injEq] at h
      obtain ⟨rfl, h2⟩ := h
      have ha2 : ('.' : Char) ∉ as := fun hm => ha (List.mem_cons_of_mem _ hm)
      have hb2 : ('.' : Char) ∉ bs := fun hm => hb (List.mem_cons_of_mem _ hm)
      obtain ⟨rfl, rfl⟩ := ih ha2 hb2 h2
      exact ⟨rfl, rfl⟩

/-- Key shapes generated by flattening are separated by their root key. -/
theorem key_shapes_ne {k1 k2 : String}
    (h1 : ('.' : Char) ∉ k1.data) (h2 : ('.' : Char) ∉ k2.data)
    (hne : k1 ≠ k2) :
    k1 ≠ k2 ∧ (∀ p, k1 ≠ k2 ++ "." ++ p) ∧ (∀ p, k1 ++ "." ++ p ≠ k2)
      ∧ ∀ p1 p2, k1 ++ "." ++ p1 ≠ k2 ++ "." ++ p2 := by
  refine ⟨hne, ?_, ?_, ?_⟩
  · intro p hEq
    apply h1
    rw [hEq, data_dot_append]
    exact List.mem_append_right _ (List.mem_cons_self _ _)
  · intro p hEq
    apply h2
    rw [← hEq, data_dot_append]
    exact List.mem_append_right _ (List.mem_cons_self _ _)
  · intro p1 p2 hEq
    have hd := congrArg String.data hEq
    rw [data_dot_append, data_dot_append] at hd
    exact hne (string_ext (dotfree_sep h1 h2 hd).1)

theorem jsSplit_ne_nil (s : String) : jsSplit s '.' ≠ [] := by
  simp only [jsSplit, ne_eq, List.map_eq_nil_iff]
  exact splitChar_ne_nil s.data

theorem jsSplit_dot_append {k : String} (p : String)
    (h : ('.' : Char) ∉ k.data) :
    jsSplit (k ++ "." ++ p) '.' = k :: jsSplit p '.' := by
  simp only [jsSplit, data_dot_append, splitChar_append k.data p.data h,
    List.map_cons]

theorem lookupAssoc_eq_none {α : Type} :
    ∀ {m : List (String × α)} {k : String},
      k ∉ m.map Prod.fst → lookupAssoc m k = none := by
  intro m
  induction m with
  | nil => intro k _; rfl
  | cons kv rest ih =>
    intro k h
    simp only [List.map_cons, List.mem_cons, not_or] at h
    simp only [lookupAssoc]
    rw [if_neg (Ne.symm h.1)]
    exact ih h.2

theorem lookupAssoc_assocSet_self {α : Type} :
    ∀ (m : List (String × α)) (k : String) (v : α),
      lookupAssoc (assocSet m k v) k = some v := by
  intro m
  induction m with
  | nil => intro k v; simp [assocSet, lookupAssoc]
  | cons kv rest ih =>
    intro k v
    simp only [assocSet]
    by_cases hk : kv.1 = k
    · obtain ⟨k1, v1⟩ := kv
      simp only at hk
      rw [if_pos hk]
      simp [lookupAssoc]
    · obtain ⟨k1, v1⟩ := kv
      simp only at hk
      rw [if_neg hk]
      simp only [lookupAssoc]
      rw [if_neg hk]
      exact ih k v

theorem assocSet_assocSet_same {α : Type} :
    ∀ (m : List (String × α)) (k : String) (v1 v2 : α),
      assocSet (assocSet m k v1) k v2 = assocSet m k v2 := by
  intro m
  induction m with
  | nil => intro k v1 v2; simp [assocSet]
  | cons kv rest ih =>
    intro k v1 v2
    obtain ⟨k1, w⟩ := kv
    simp only [assocSet]
    by_cases hk : k1 = k
    · rw [if_pos hk]
      simp only [assocSet]
      rw [if_pos hk]
      simp
    · rw [if_neg hk]
      simp only [assocSet]
      rw [if_neg hk, if_neg hk, ih]

theorem foldl_assocSet_fresh_gen {α : Type} :
    ∀ (src tgt : List (String × α)),
      (src.map Prod.fst).Nodup →
      (∀ k ∈ src.map Prod.fst, k ∉ tgt.map Prod.fst) →
      src.foldl (fun m kv => assocSet m kv.1 kv.2) tgt = tgt ++ src := by
  intro src
  induction src with
  | nil => intro tgt _ _; simp
  | cons kv rest ih =>
    intro tgt hnd hdisj
    simp only [List.map_cons, List.nodup_cons] at hnd
    have hfresh : kv.1 ∉ tgt.map Prod.fst := hdisj kv.1 (by simp)
    simp only [List.foldl_cons, assocSet_fresh hfresh]
    rw [ih (tgt ++ [kv]) hnd.2]
    · simp
    · intro k hk
      simp only [List.map_append, List.map_cons, List.map_nil, List.mem_append,
        List.mem_singleton, not_or]
      refine ⟨hdisj k (List.mem_cons_of_mem _ hk), fun hEq => hnd.1 (hEq ▸ hk)⟩

theorem assignAll_fresh {α : Type} (tgt src : List (String × α))
    (hnd : (src.map Prod.fst).Nodup)
    (hdisj : ∀ k ∈ src.map Prod.fst, k ∉ tgt.map Prod.fst) :
    assignAll tgt src = tgt ++ src :=
  foldl_assocSet_fresh_gen src tgt hnd hdisj

theorem unflattenFold_append :
    ∀ (a b : List (String × String)) (acc : List (String × JValue)),
      unflattenFold (a ++ b) acc =
        match unflattenFold a acc with
        | .ok acc2 => unflattenFold b acc2
        | .error e => .error e := by
  intro a
  induction a with
  | nil => intro b acc; rfl
  | cons kv rest ih =>
    intro b acc
    obtain ⟨k, v⟩ := kv
    simp only [List.cons_append, unflattenFold]
    cases setPath acc (jsSplit k '.') v with
    | ok acc2 =>
      simp only [Bind.bind, Except.bind]
      exact ih b acc2
    | error e => simp only [Bind.bind, Except.bind]

/-- Structural induction over preference objects, with one case per kind of
entry value. -/
theorem entries_induction (P : List (String × JValue) → Prop)
    (hnil : P [])
    (hobj : ∀ k es rest, P es → P rest → P ((k, .vobj es) :: rest))
    (hstr : ∀ k s rest, P rest → P ((k, .vstr s) :: rest))
    (hnum : ∀ k n rest, P rest → P ((k, .vnum n) :: rest))
    (hbool : ∀ k b rest, P rest → P ((k, .vbool b) :: rest)) :
    ∀ entries, P entries :=
  fun entries =>
    flatCat.induct (fun _ es => P es) (fun _ => hnil)
      (fun _ k rest es hes hrest => hobj k es rest hes hrest)
      (fun _ k rest s hrest => hstr k s rest hrest)
      (fun _ k rest n hrest => hnum k n rest hrest)
      (fun _ k rest b hrest => hbool k b rest hrest) "" entries

theorem goodKey_ne_empty {k : String} (h : goodKey k = true) : k ≠ "" := by
  intro hEq
  rw [hEq] at h
  simp [goodKey] at h

theorem goodKey_no_dot {k : String} (h : goodKey k = true) :
    ('.' : Char) ∉ k.data := by
  simp only [goodKey, Bool.and_eq_true, Bool.not_eq_eq_eq_not,
    Bool.not_true] at h
  have h2 := h.2
  simp at h2
  exact h2

theorem hasKey_false {rest : List (String × JValue)} {k : String}
    (h : hasKey rest k = false) : ∀ e ∈ rest, e.1 ≠ k := by
  intro e he hEq
  have : hasKey rest k = true := by
    simp only [hasKey, List.any_eq_true]
    exact ⟨e, he, by simp [hEq]⟩
  rw [h] at this
  cases this

theorem goodEntries_cons {k : String} {v : JValue}
    {rest : List (String × JValue)}
    (h : goodEntries ((k, v) :: rest) = true) :
    goodKey k = true ∧ hasKey rest k = false ∧ goodValue v = true
      ∧ goodEntries rest = true := by
  simp only [goodEntries, Bool.and_eq_true, Bool.not_eq_eq_eq_not,
    Bool.not_true] at h
  exact ⟨h.1.1.1, h.1.1.2, h.1.2, h.2⟩

theorem goodValue_obj {es : List (String × JValue)}
    (h : goodValue (.vobj es) = true) : es ≠ [] ∧ goodEntries es = true := by
  simp only [goodValue, Bool.and_eq_true, Bool.not_eq_eq_eq_not,
    Bool.not_true] at h
  exact ⟨by simpa using h.1, h.2⟩

theorem goodEntries_mem_key {es : List (String × JValue)}
    (h : goodEntries es = true) : ∀ e ∈ es, goodKey e.1 = true := by
  induction es with
  | nil => intro e he; cases he
  | cons kv rest ih =>
    intro e he
    obtain ⟨k, v⟩ := kv
    obtain ⟨h1, _, _, h4⟩ := goodEntries_cons h
    rcases List.mem_cons.mp he with rfl | hm
    · exact h1
    · exact ih h4 e hm

/-- Below a non-empty prefix, flattening produces the same bindings as at
the root, with the prefix and a dot prepended to every key. -/
theorem flatCat_nested :
    ∀ entries, goodEntries entries = true → ∀ pre : String, pre ≠ "" →
      flatCat pre entries =
        (flatCat "" entries).map (fun kv => (pre ++ "." ++ kv.1, kv.2)) := by
  refine entries_induction _ ?_ ?_ ?_ ?_ ?_
  · intro _ _ _; simp [flatCat]
  · intro k es rest ihes ihrest h pre hpre
    obtain ⟨h1, h2, h3, h4⟩ := goodEntries_cons h
    have hk : k ≠ "" := goodKey_ne_empty h1
    have hes := (goodValue_obj h3).2
    simp only [flatCat]
    rw [if_neg hpre, if_true]
    rw [ihes hes (pre ++ "." ++ k) (dot_append_ne_empty pre k),
      ihes hes k hk, ihrest h4 pre hpre, List.map_append, List.map_map]
    congr 1
    apply List.map_congr_left
    intro kv _
    simp only [Function.comp_apply, dot_append_assoc]
  · intro k s rest ihrest h pre hpre
    obtain ⟨_, _, _, h4⟩ := goodEntries_cons h
    simp only [flatCat, List.map_cons]
    rw [if_neg hpre, if_true, ihrest h4 pre hpre]
  · intro k n rest ihrest h pre hpre
    obtain ⟨_, _, _, h4⟩ := goodEntries_cons h
    simp only [flatCat, List.map_cons]
    rw [if_neg hpre, if_true, ihrest h4 pre hpre]
  · intro k b rest ihrest h pre hpre
    obtain ⟨_, _, _, h4⟩ := goodEntries_cons h
    simp only [flatCat, List.map_cons]
    rw [if_neg hpre, if_true, ihrest h4 pre hpre]

theorem flatCat_cons_obj {k : String} {es rest : List (String × JValue)}
    (hk : k ≠ "") (hes : goodEntries es = true) :
    flatCat "" ((k, JValue.vobj es) :: rest) =
      (flatCat "" es).map (fun kv => (k ++ "." ++ kv.1, kv.2))
        ++ flatCat "" rest := by
  simp only [flatCat]
  rw [if_true, flatCat_nested es hes k hk]

theorem flatCat_cons_str {k s : String} {rest : List (String × JValue)} :
    flatCat "" ((k, JValue.vstr s) :: rest) =
      (k, leafString (.vstr s)) :: flatCat "" rest := by
  simp only [flatCat]
  rw [if_true]

theorem flatCat_cons_num {k : String} {n : JSNum}
    {rest : List (String × JValue)} :
    flatCat "" ((k, JValue.vnum n) :: rest) =
      (k, leafString (.vnum n)) :: flatCat "" rest := by
  simp only [flatCat]
  rw [if_true]

theorem flatCat_cons_bool {k : String} {b : Bool}
    {rest : List (String × JValue)} :
    flatCat "" ((k, JValue.vbool b) :: rest) =
      (k, leafString (.vbool b)) :: flatCat "" rest := by
  simp only [flatCat]
  rw [if_true]

/-- Every flat key generated from a well-formed object is its entry's key
or that key followed by a dotted path. -/
theorem flatCat_key_shape :
    ∀ entries, goodEntries entries = true →
      ∀ kk ∈ (flatCat "" entries).map Prod.fst,
        ∃ e ∈ entries, kk = e.1 ∨ ∃ p : String, kk = e.1 ++ "." ++ p := by
  refine entries_induction _ ?_ ?_ ?_ ?_ ?_
  · intro _ kk hkk
    simp [flatCat] at hkk
  · intro k es rest ihes ihrest h kk hkk
    obtain ⟨h1, h2, h3, h4⟩ := goodEntries_cons h
    have hk : k ≠ "" := goodKey_ne_empty h1
    have hes := (goodValue_obj h3).2
    rw [flatCat_cons_obj hk hes, List.map_append, List.mem_append] at hkk
    rcases hkk with hl | hr
    · rw [List.map_map] at hl
      obtain ⟨kv, hkv, rfl⟩ := List.mem_map.mp hl
      exact ⟨(k, .vobj es), List.mem_cons_self _ _, Or.inr ⟨kv.1, rfl⟩⟩
    · obtain ⟨e, he, hor⟩ := ihrest h4 kk hr
      exact ⟨e, List.mem_cons_of_mem _ he, hor⟩
  · intro k s rest ihrest h kk hkk
    obtain ⟨_, _, _, h4⟩ := goodEntries_cons h
    rw [flatCat_cons_str, List.map_cons, List.mem_cons] at hkk
    rcases hkk with hE | hm
    · exact ⟨(k, .vstr s), List.mem_cons_self _ _, Or.inl hE⟩
    · obtain ⟨e, he, hor⟩ := ihrest h4 kk hm
      exact ⟨e, List.mem_cons_of_mem _ he, hor⟩
  · intro k n rest ihrest h kk hkk
    obtain ⟨_, _, _, h4⟩ := goodEntries_cons h
    rw [flatCat_cons_num, List.map_cons, List.mem_cons] at hkk
    rcases hkk with hE | hm
    · exact ⟨(k, .vnum n), List.mem_cons_self _ _, Or.inl hE⟩
    · obtain ⟨e, he, hor⟩ := ihrest h4 kk hm
      exact ⟨e, List.mem_cons_of_mem _ he, hor⟩
  · intro k b rest ihrest h kk hkk
    obtain ⟨_, _, _, h4⟩ := goodEntries_cons h
    rw [flatCat_cons_bool, List.map_cons, List.mem_cons] at hkk
    rcases hkk with hE | hm
    · exact ⟨(k, .vbool b), List.mem_cons_self _ _, Or.inl hE⟩
    · obtain ⟨e, he, hor⟩ := ihrest h4 kk hm
      exact ⟨e, List.mem_cons_of_mem _ he, hor⟩

/-- A root key is never among the keys flattened from later entries. -/
theorem root_key_not_mem {k : String} {rest : List (String × JValue)}
    (h1 : goodKey k = true) (h2 : hasKey rest k = false)
    (h4 : goodEntries rest = true) :
    k ∉ (flatCat "" rest).map Prod.fst := by
  intro hm
  obtain ⟨e, he, hor⟩ := flatCat_key_shape rest h4 k hm
  have hne : e.1 ≠ k := hasKey_false h2 e he
  rcases hor with hEq | ⟨p, hEq⟩
  · exact hne hEq.symm
  · apply goodKey_no_dot h1
    rw [hEq, data_dot_append]
    exact List.mem_append_right _ (List.mem_cons_self _ _)

/-- The flat keys of a well-formed object are distinct. -/
theorem flatCat_nodup :
    ∀ entries, goodEntries entries = true →
      ((flatCat "" entries).map Prod.fst).Nodup := by
  refine entries_induction _ ?_ ?_ ?_ ?_ ?_
  · intro _
    simp [flatCat]
  · intro k es rest ihes ihrest h
    obtain ⟨h1, h2, h3, h4⟩ := goodEntries_cons h
    have hk := goodKey_ne_empty h1
    have hkd := goodKey_no_dot h1
    have hes := (goodValue_obj h3).2
    rw [flatCat_cons_obj hk hes, List.map_append]
    apply List.Nodup.append
    · rw [List.map_map]
      have hcomp : (Prod.fst ∘ fun kv : String × String =>
          (k ++ "." ++ kv.1, kv.2)) = (fun p => k ++ "." ++ p) ∘ Prod.fst := rfl
      rw [hcomp, ← List.map_map]
      exact (ihes hes).map (fun p1 p2 hEq => dot_append_right_cancel hEq)
    · exact ihrest h4
    · intro x hxl hxr
      rw [List.map_map] at hxl
      obtain ⟨kv, hkv, rfl⟩ := List.mem_map.mp hxl
      obtain ⟨e, he, hor⟩ := flatCat_key_shape rest h4 _ hxr
      have hek := goodEntries_mem_key h4 e he
      have hne : k ≠ e.1 := Ne.symm (hasKey_false h2 e he)
      simp only [Function.comp_apply] at hor
      rcases hor with hEq | ⟨p, hEq⟩
      · apply goodKey_no_dot hek
        rw [← hEq, data_dot_append]
        exact List.mem_append_right _ (List.mem_cons_self _ _)
      · exact (key_shapes_ne hkd (goodKey_no_dot hek) hne).2.2.2 kv.1 p hEq
  · intro k s rest ihrest h
    obtain ⟨h1, h2, _, h4⟩ := goodEntries_cons h
    rw [flatCat_cons_str, List.map_cons, List.nodup_cons]
    exact ⟨root_key_not_mem h1 h2 h4, ihrest h4⟩
  · intro k n rest ihrest h
    obtain ⟨h1, h2, _, h4⟩ := goodEntries_cons h
    rw [flatCat_cons_num, List.map_cons, List.nodup_cons]
    exact ⟨root_key_not_mem h1 h2 h4, ihrest h4⟩
  · intro k b rest ihrest h
    obtain ⟨h1, h2, _, h4⟩ := goodEntries_cons h
    rw [flatCat_cons_bool, List.map_cons, List.nodup_cons]
    exact ⟨root_key_not_mem h1 h2 h4, ihrest h4⟩

/-- A non-empty well-formed object flattens to at least one binding. -/
theorem flatCat_nonempty :
    ∀ entries, goodEntries entries = true → entries ≠ [] →
      flatCat "" entries ≠ [] := by
  refine entries_induction _ ?_ ?_ ?_ ?_ ?_
  · intro _ hne
    exact absurd rfl hne
  · intro k es rest ihes ihrest h _
    obtain ⟨h1, _, h3, _⟩ := goodEntries_cons h
    have hk := goodKey_ne_empty h1
    obtain ⟨hesne, hes⟩ := goodValue_obj h3
    rw [flatCat_cons_obj hk hes]
    intro hEq
    rcases List.append_eq_nil.mp hEq with ⟨hl, _⟩
    exact ihes hes hesne (List.map_eq_nil_iff.mp hl)
  · intro k s rest _ _ _
    rw [flatCat_cons_str]
    simp
  · intro k n rest _ _ _
    rw [flatCat_cons_num]
    simp
  · intro k b rest _ _ _
    rw [flatCat_cons_bool]
    simp

theorem flatCat_nodup_pre :
    ∀ entries (pre : String), goodEntries entries = true →
      ((flatCat pre entries).map Prod.fst).Nodup := by
  intro entries pre h
  by_cases hpre : pre = ""
  · subst hpre
    exact flatCat_nodup entries h
  · rw [flatCat_nested entries h pre hpre, List.map_map]
    have hcomp : (Prod.fst ∘ fun kv : String × String =>
        (pre ++ "." ++ kv.1, kv.2)) = (fun p => pre ++ "." ++ p) ∘ Prod.fst := rfl
    rw [hcomp, ← List.map_map]
    exact (flatCat_nodup entries h).map
      (fun p1 p2 hEq => dot_append_right_cancel hEq)

/-- On a well-formed object, the source flattening loop appends exactly the
closed-form bindings to the record built so far. -/
theorem flattenLoop_eq :
    ∀ entries, goodEntries entries = true →
      ∀ (pre : String) (acc : List (String × String)),
        (∀ kk ∈ (flatCat pre entries).map Prod.fst, kk ∉ acc.map Prod.fst) →
        flattenLoop pre entries acc = acc ++ flatCat pre entries := by
  refine entries_induction _ ?_ ?_ ?_ ?_ ?_
  · intro _ pre acc _
    simp [flattenLoop, flatCat]
  · intro k es rest ihes ihrest h pre acc hdisj
    obtain ⟨h1, h2, h3, h4⟩ := goodEntries_cons h
    obtain ⟨hesne, hes⟩ := goodValue_obj h3
    have hwhole := flatCat_nodup_pre ((k, JValue.vobj es) :: rest) pre h
    have hcatEq : flatCat pre ((k, JValue.vobj es) :: rest) =
        flatCat (if pre = "" then k else pre ++ "." ++ k) es
          ++ flatCat pre rest := by
      simp only [flatCat]
    rw [hcatEq, List.map_append] at hwhole hdisj
    have hsplitnd := List.nodup_append.mp hwhole
    simp only [flattenLoop]
    rw [ihes hes (if pre = "" then k else pre ++ "." ++ k) [] (by simp),
      List.nil_append,
      assignAll_fresh acc _ hsplitnd.1
        (fun kk hkk => hdisj kk (List.mem_append_left _ hkk)),
      ihrest h4 pre (acc ++ flatCat (if pre = "" then k else pre ++ "." ++ k) es)
        ?_, hcatEq, List.append_assoc]
    intro kk hkk
    rw [List.map_append, List.mem_append, not_or]
    exact ⟨hdisj kk (List.mem_append_right _ hkk),
      fun hmem => hsplitnd.2.2 hmem hkk⟩
  · intro k s rest ihrest h pre acc hdisj
    obtain ⟨h1, h2, h3, h4⟩ := goodEntries_cons h
    have hwhole := flatCat_nodup_pre ((k, JValue.vstr s) :: rest) pre h
    have hcatEq : flatCat pre ((k, JValue.vstr s) :: rest) =
        ((if pre = "" then k else pre ++ "." ++ k), leafString (.vstr s))
          :: flatCat pre rest := by
      simp only [flatCat]
    rw [hcatEq, List.map_cons] at hwhole hdisj
    rw [List.nodup_cons] at hwhole
    simp only [flattenLoop]
    rw [assocSet_fresh (hdisj _ (List.mem_cons_self _ _)),
      ihrest h4 pre (acc ++ [((if pre = "" then k else pre ++ "." ++ k),
        leafString (.vstr s))]) ?_, hcatEq, List.append_assoc]
    · rfl
    intro kk hkk
    rw [List.map_append, List.mem_append, not_or]
    refine ⟨hdisj kk (List.mem_cons_of_mem _ hkk), ?_⟩
    simp only [List.map_cons, List.map_nil, List.mem_singleton]
    intro hEq
    exact hwhole.1 (hEq ▸ hkk)
  · intro k n rest ihrest h pre acc hdisj
    obtain ⟨h1, h2, h3, h4⟩ := goodEntries_cons h
    have hwhole := flatCat_nodup_pre ((k, JValue.vnum n) :: rest) pre h
    have hcatEq : flatCat pre ((k, JValue.vnum n) :: rest) =
        ((if pre = "" then k else pre ++ "." ++ k), leafString (.vnum n))
          :: flatCat pre rest := by
      simp only [flatCat]
    rw [hcatEq, List.map_cons] at hwhole hdisj
    rw [List.nodup_cons] at hwhole
    simp only [flattenLoop]
    rw [assocSet_fresh (hdisj _ (List.mem_cons_self _ _)),
      ihrest h4 pre (acc ++ [((if pre = "" then k else pre ++ "." ++ k),
        leafString (.vnum n))]) ?_, hcatEq, List.append_assoc]
    · rfl
    intro kk hkk
    rw [List.map_append, List.mem_append, not_or]
    refine ⟨hdisj kk (List.mem_cons_of_mem _ hkk), ?_⟩
    simp only [List.map_cons, List.map_nil, List.mem_singleton]
    intro hEq
    exact hwhole.1 (hEq ▸ hkk)
  · intro k b rest ihrest h pre acc hdisj
    obtain ⟨h1, h2, h3, h4⟩ := goodEntries_cons h
    have hwhole := flatCat_nodup_pre ((k, JValue.vbool b) :: rest) pre h
    have hcatEq : flatCat pre ((k, JValue.vbool b) :: rest) =
        ((if pre = "" then k else pre ++ "." ++ k), leafString (.vbool b))
          :: flatCat pre rest := by
      simp only [flatCat]
    rw [hcatEq, List.map_cons] at hwhole hdisj
    rw [List.nodup_cons] at hwhole
    simp only [flattenLoop]
    rw [assocSet_fresh (hdisj _ (List.mem_cons_self _ _)),
      ihrest h4 pre (acc ++ [((if pre = "" then k else pre ++ "." ++ k),
        leafString (.vbool b))]) ?_, hcatEq, List.append_assoc]
    · rfl
    intro kk hkk
    rw [List.map_append, List.mem_append, not_or]
    refine ⟨hdisj kk (List.mem_cons_of_mem _ hkk), ?_⟩
    simp only [List.map_cons, List.map_nil, List.mem_singleton]
    intro hEq
    exact hwhole.1 (hEq ▸ hkk)

/-- `flattenObject` on a well-formed object produces the closed-form flat
record. -/
theorem flattenObject_eq (es : List (String × JValue))
    (h : goodEntries es = true) :
    flattenObject (.vobj es) "" = flatCat "" es := by
  simp only [flattenObject]
  rw [flattenLoop_eq es h "" [] (by simp)]
  rfl

/-- Unflattening a group of bindings that share a dot-free root key `k`
builds (or extends) the object stored under `k` exactly as unflattening the
un-prefixed bindings into that child object. -/
theorem unflattenFold_group :
    ∀ (fl : List (String × String)) (acc child : List (String × JValue))
      (k : String),
      fl ≠ [] →
      ('.' : Char) ∉ k.data →
      (lookupAssoc acc k = some (.vobj child) ∨
        (lookupAssoc acc k = none ∧ child = [])) →
      unflattenFold (fl.map (fun kv => (k ++ "." ++ kv.1, kv.2))) acc =
        match unflattenFold fl child with
        | .ok c => .ok (assocSet acc k (.vobj c))
        | .error e => .error e := by
  intro fl
  induction fl with
  | nil =>
    intro acc child k hne _ _
    exact absurd rfl hne
  | cons pv rest ih =>
    intro acc child k _ hkd hacc
    obtain ⟨p, v⟩ := pv
    obtain ⟨p1, ps, hsp⟩ : ∃ p1 ps, jsSplit p '.' = p1 :: ps := by
      cases hs : jsSplit p '.' with
      | nil => exact absurd hs (jsSplit_ne_nil p)
      | cons a as => exact ⟨a, as, rfl⟩
    have hstep : setPath acc (k :: p1 :: ps) v =
        (setPath child (p1 :: ps) v).map (fun c => assocSet acc k (.vobj c)) := by
      rcases hacc with hsome | ⟨hnone, hchild⟩
      · simp only [setPath, hsome]
      · subst hchild
        simp only [setPath, hnone]
    simp only [List.map_cons, unflattenFold, jsSplit_dot_append p hkd, hsp, hstep]
    cases hsp2 : setPath child (p1 :: ps) v with
    | error e =>
      simp only [Except.map, Bind.bind, Except.bind]
    | ok c1 =>
      simp only [Except.map, Bind.bind, Except.bind]
      cases rest with
      | nil =>
        simp only [List.map_nil, unflattenFold]
      | cons q qs =>
        rw [ih (assocSet acc k (.vobj c1)) c1 k (by simp) hkd
          (Or.inl (lookupAssoc_assocSet_self acc k (.vobj c1)))]
        cases unflattenFold (q :: qs) c1 with
        | ok c2 => simp [assocSet_assocSet_same]
        | error e => simp

/-- Unflattening the closed-form flat record of a well-formed object appends
the normalised entries to the record built so far. -/
theorem unflatten_flatCat :
    ∀ entries, goodEntries entries = true →
      ∀ acc : List (String × JValue),
        (∀ e ∈ entries, e.1 ∉ acc.map Prod.fst) →
        unflattenFold (flatCat "" entries) acc =
          .ok (acc ++ normalizeEntries entries) := by
  refine entries_induction _ ?_ ?_ ?_ ?_ ?_
  · intro _ acc _
    simp [flatCat, normalizeEntries, unflattenFold]
  · intro k es rest ihes ihrest h acc hdisj
    obtain ⟨h1, h2, h3, h4⟩ := goodEntries_cons h
    have hk := goodKey_ne_empty h1
    have hkd := goodKey_no_dot h1
    obtain ⟨hesne, hes⟩ := goodValue_obj h3
    have hkacc : k ∉ acc.map Prod.fst :=
      hdisj (k, .vobj es) (List.mem_cons_self _ _)
    rw [flatCat_cons_obj hk hes, unflattenFold_append,
      unflattenFold_group (flatCat "" es) acc [] k
        (flatCat_nonempty es hes hesne) hkd
        (Or.inr ⟨lookupAssoc_eq_none hkacc, rfl⟩),
      ihes hes [] (by simp), List.nil_append]
    simp only []
    rw [assocSet_fresh hkacc, ihrest h4 _ ?_]
    · simp only [normalizeEntries]
      rw [List.append_assoc, List.singleton_append]
    · intro e he
      simp only [List.map_append, List.mem_append, not_or, List.map_cons,
        List.map_nil, List.mem_singleton]
      exact ⟨hdisj e (List.mem_cons_of_mem _ he), hasKey_false h2 e he⟩
  · intro k s rest ihrest h acc hdisj
    obtain ⟨h1, h2, _, h4⟩ := goodEntries_cons h
    have hkd := goodKey_no_dot h1
    have hkacc : k ∉ acc.map Prod.fst :=
      hdisj (k, .vstr s) (List.mem_cons_self _ _)
    rw [flatCat_cons_str]
    simp only [unflattenFold, jsSplit_no_dot hkd, setPath, Bind.bind,
      Except.bind]
    rw [assocSet_fresh hkacc, ihrest h4 _ ?_]
    · simp only [normalizeEntries]
      rw [List.append_assoc, List.singleton_append]
    · intro e he
      simp only [List.map_append, List.mem_append, not_or, List.map_cons,
        List.map_nil, List.mem_singleton]
      exact ⟨hdisj e (List.mem_cons_of_mem _ he), hasKey_false h2 e he⟩
  · intro k n rest ihrest h acc hdisj
    obtain ⟨h1, h2, _, h4⟩ := goodEntries_cons h
    have hkd := goodKey_no_dot h1
    have hkacc : k ∉ acc.map Prod.fst :=
      hdisj (k, .vnum n) (List.mem_cons_self _ _)
    rw [flatCat_cons_num]
    simp only [unflattenFold, jsSplit_no_dot hkd, setPath, Bind.bind,
      Except.bind]
    rw [assocSet_fresh hkacc, ihrest h4 _ ?_]
    · simp only [normalizeEntries]
      rw [List.append_assoc, List.singleton_append]
    · intro e he
      simp only [List.map_append, List.mem_append, not_or, List.map_cons,
        List.map_nil, List.mem_singleton]
      exact ⟨hdisj e (List.mem_cons_of_mem _ he), hasKey_false h2 e he⟩
  · intro k b rest ihrest h acc hdisj
    obtain ⟨h1, h2, _, h4⟩ := goodEntries_cons h
    have hkd := goodKey_no_dot h1
    have hkacc : k ∉ acc.map Prod.fst :=
      hdisj (k, .vbool b) (List.mem_cons_self _ _)
    rw [flatCat_cons_bool]
    simp only [unflattenFold, jsSplit_no_dot hkd, setPath, Bind.bind,
      Except.bind]
    rw [assocSet_fresh hkacc, ihrest h4 _ ?_]
    · simp only [normalizeEntries]
      rw [List.append_assoc, List.singleton_append]
    · intro e he
      simp only [List.map_append, List.mem_append, not_or, List.map_cons,
        List.map_nil, List.mem_singleton]
      exact ⟨hdisj e (List.mem_cons_of_mem _ he), hasKey_false h2 e he⟩

/-- Counterexample to claim C2: a boolean leaf does not round-trip.
`{a: true}` flattens to `{"a": "true"}`, and unflattening keeps the string
`"true"` because `Number("true")` is `NaN` — the result differs from the
original object, and booleans are not the claim's documented lossy case
(numeric-looking strings). -/
theorem c2_boolean_leaf_lost :
    unflattenObject (flattenObject (.vobj [("a", .vbool true)]) "") =
        .ok [("a", JValue.vstr "true")]
      ∧ JValue.vstr "true" ≠ JValue.vbool true := by
  have hflat : flattenObject (.vobj [("a", .vbool true)]) "" =
      [("a", "true")] := by
    simp [flattenObject, flattenLoop, leafString, assocSet]
  refine ⟨?_, fun h => JValue.noConfusion h⟩
  rw [hflat]
  rfl

/-- Claim C2 (amended): for a nested object with distinct, non-empty,
dot-free keys and no empty nested objects, `unflattenObject ∘ flattenObject`
returns the object with every leaf value replaced by the numeric coercion
of its stringified form (`coerceLeaf ∘ leafString`, i.e. `normalizeEntries`).
In particular string leaves survive except that numeric-looking strings come
back as numbers (the documented lossy case, which also admits `Infinity`),
number leaves survive whenever printing then parsing is the identity
(e.g. every number with a terminating decimal print, hence every non-NaN
double), and boolean leaves come back as the strings `"true"`/`"false"`,
not as booleans. -/
theorem c2_roundtrip (es : List (String × JValue))
    (h : goodEntries es = true) :
    unflattenObject (flattenObject (.vobj es) "") =
      .ok (normalizeEntries es) := by
  rw [flattenObject_eq es h]
  exact unflatten_flatCat es h [] (by simp)

/-- Witness for C2 at a concrete nested object: the string leaf and the
integer leaf survive, the numeric-looking string becomes a number. -/
theorem c2_witness :
    unflattenObject (flattenObject
        (.vobj [("a", .vstr "x"),
                ("b", .vobj [("c", .vnum (.fin 8)), ("d", .vstr "08")])]) "") =
      .ok (normalizeEntries
        [("a", .vstr "x"),
         ("b", .vobj [("c", .vnum (.fin 8)), ("d", .vstr "08")])]) :=
  c2_roundtrip
    [("a", .vstr "x"),
     ("b", .vobj [("c", .vnum (.fin 8)), ("d", .vstr "08")])] (by decide)

end Flasher
